import Mathlib

set_option maxRecDepth 8000

/-!
Shallow embedding of `src/debreviate.js`: the reversed-string trie, its
incremental traverser (`TrieTraverser`), the backward-scanning expansion
engine (`processInput`), the spreadsheet-payload parser (`parseData` /
`handleDataResponse`), and the prototype-root sharing of the `Trie`
constructor.  JS strings are modelled as `List Char`, JS objects as
association lists with unique keys, and in-place mutation as explicit
state passing.
-/

/-- Association-list lookup, modelling `key in obj` / `obj[key]` on a JS
object whose keys are kept unique. -/
def alistGet {α β : Type} [DecidableEq α] : List (α × β) → α → Option β
  | [], _ => none
  | (a, b) :: rest, key => if a = key then some b else alistGet rest key

/-- Association-list write, modelling `obj[key] = value`: overwrites an
existing binding in place, or appends a new binding at the end (JS
string-keyed property order is insertion order). -/
def alistPut {α β : Type} [DecidableEq α] : List (α × β) → α → β → List (α × β)
  | [], key, val => [(key, val)]
  | (a, b) :: rest, key, val =>
    if a = key then (key, val) :: rest else (a, b) :: alistPut rest key val

/-- A node in the trie (`TrieNode` in the source): character-keyed outgoing
edges, a leaf flag, and the data carried by a completed string. -/
inductive TrieNode : Type where
  | mk (edges : List (Char × TrieNode)) (isLeaf : Bool) (data : Option String) : TrieNode

/-- The `edges` field of a node. -/
def TrieNode.edges : TrieNode → List (Char × TrieNode)
  | .mk e _ _ => e

/-- The `isLeaf` field of a node. -/
def TrieNode.isLeaf : TrieNode → Bool
  | .mk _ l _ => l

/-- The `data` field of a node. -/
def TrieNode.data : TrieNode → Option String
  | .mk _ _ d => d

/-- `new TrieNode()`: no edges, not a leaf, no data. -/
def TrieNode.empty : TrieNode := .mk [] false none

/-- `Trie.prototype.add`: walk the key one character at a time from the
given node, creating missing child nodes, and mark the node reached by the
final character as a leaf carrying `data`.  For the empty key the source's
`for` loop body never runs, so the node is returned unchanged. -/
def TrieNode.add : TrieNode → List Char → String → TrieNode
  | t, [], _ => t
  | t, c :: rest, v =>
    let child : TrieNode := (alistGet t.edges c).getD TrieNode.empty
    let child2 : TrieNode :=
      if rest = [] then TrieNode.mk child.edges true (some v)
      else TrieNode.add child rest v
    TrieNode.mk (alistPut t.edges c child2) t.isLeaf t.data

/-- The result object of `TrieTraverser.prototype.traverse`: on failure the
source returns `{couldTraverse: false}` with no other fields; on success it
reports the new node's leaf flag and data. -/
inductive TravRes : Type where
  | fail : TravRes
  | ok (isLeaf : Bool) (data : Option String) : TravRes
deriving DecidableEq

/-- The `TrieTraverser`: holds the current node (`cursor_` in the source). -/
structure TrieTraverser where
  cursor : TrieNode

/-- `TrieTraverser.prototype.traverse`: if the current node has no edge for
`c`, return failure *before* touching `cursor_` (so the position is
unchanged); otherwise move to the child and report its flags. -/
def TrieTraverser.traverse (tr : TrieTraverser) (c : Char) : TravRes × TrieTraverser :=
  match alistGet tr.cursor.edges c with
  | none => (TravRes.fail, tr)
  | some n => (TravRes.ok n.isLeaf n.data, ⟨n⟩)

/-- Feed a list of characters to a fresh traverser over `root`, collecting
the result of each `traverse` call (the cursor after a failed call is the
unchanged node, as in the source). -/
def runTraverser (root : TrieNode) : List Char → List TravRes
  | [] => []
  | c :: rest =>
    let p := TrieTraverser.traverse ⟨root⟩ c
    p.1 :: runTraverser p.2.cursor rest

/-- Follow a whole path of edge characters from a node. -/
def lookupPath : TrieNode → List Char → Option TrieNode
  | t, [] => some t
  | t, c :: rest => (alistGet t.edges c).bind (fun n => lookupPath n rest)

/-- Complete lookup of a stored string: the value at the end of the path,
provided the final node is a leaf. -/
def lookupVal (root : TrieNode) (k : List Char) : Option String :=
  match lookupPath root k with
  | some n => if n.isLeaf then n.data else none
  | none => none

/-- `reverseString`: `str.split('').reverse().join('')`. -/
def reverseString (s : List Char) : List Char := s.reverse

/-- The key transformation of `handleDataResponse`:
`reverseString(key).toLowerCase()`. -/
def normKey (s : String) : List Char := (reverseString s.data).map Char.toLower

/-- One iteration of the `for (var key in data) trie.add(...)` loop of
`handleDataResponse`, on a bare node. -/
def addAbbrev (t : TrieNode) (k : String) (v : String) : TrieNode :=
  TrieNode.add t (normKey k) v

/-- `isBoundaryCharacter`: `!/[a-z0-9]/i.test(char)` — anything that is not
an ASCII letter (either case) or digit. -/
def isBoundaryCharacter (c : Char) : Bool :=
  !(decide (('a' ≤ c ∧ c ≤ 'z') ∨ ('A' ≤ c ∧ c ≤ 'Z') ∨ ('0' ≤ c ∧ c ≤ '9')))

/-- `element.value[pos]`.  In the browser every position read by the scan is
in range (`selectionStart ≤ value.length`); out of range we return a default
character where the source would produce `undefined`. -/
def charAt (v : List Char) (pos : Nat) : Char := v.getD pos ' '

/-- The replacement construction of `processInput`: the stored expansion,
with its first character upper-cased when the matched character differs
from its own lower-casing (`char != char.toLowerCase()`) and the expansion
is non-empty. -/
def buildReplacement (c : Char) (d : List Char) : List Char :=
  if c ≠ Char.toLower c ∧ d ≠ [] then
    match d with
    | [] => []
    | a :: rest => Char.toUpper a :: rest
  else d

/-- The mutable state of the `processInput` loop: the field text
(`element.value`), the selection offset (`selectionStart = selectionEnd`,
collapsed), the traverser, and — as pure instrumentation, not part of the
source state — the number of times the replacement branch has run. -/
structure EngSt where
  value : List Char
  sel : Nat
  trav : TrieTraverser
  count : Nat

/-- The `while (true)` loop of `processInput`.  The first `Nat` argument is
`nextCharPosition + 1` for the position about to be examined, so `0` is the
`nextCharPosition < 0` exit.  Each iteration reads the character at the
current position from the *current* text, lower-cases it and feeds it to
the traverser; a failed traversal breaks; at a leaf whose boundary check
passes the text, and the selection are rewritten (`cursorPosition` stays
the value captured before the loop, exactly as in the source) and — as in
the source, which has no `break` in that branch — the loop continues. -/
def scan (cursorPosition : Nat) : Nat → EngSt → EngSt
  | 0, st => st
  | pos + 1, st =>
    let c := charAt st.value pos
    match st.trav.traverse (Char.toLower c) with
    | (TravRes.fail, _) => st
    | (TravRes.ok leaf dat, tr2) =>
      if leaf then
        if pos = 0 ∨ isBoundaryCharacter (charAt st.value (pos - 1)) = true then
          let before := st.value.take pos
          let repl := buildReplacement c (String.data (dat.getD ""))
          let after := st.value.drop cursorPosition
          scan cursorPosition pos ⟨before ++ repl ++ after, before.length + repl.length, tr2, st.count + 1⟩
        else scan cursorPosition pos ⟨st.value, st.sel, tr2, st.count⟩
      else scan cursorPosition pos ⟨st.value, st.sel, tr2, st.count⟩

/-- The observable outcome of `processInput`: final field text, final
collapsed selection offset, and the number of replacements applied. -/
structure EngineResult where
  value : List Char
  sel : Nat
  count : Nat
deriving DecidableEq

/-- `processInput`, on the pure data it reads: the trie root, the field
text and `selectionStart`.  A fresh traverser is created at the root and
the backward scan starts one character before the cursor. -/
def processInput (root : TrieNode) (value : List Char) (cursorPosition : Nat) : EngineResult :=
  let st := scan cursorPosition cursorPosition ⟨value, cursorPosition, ⟨root⟩, 0⟩
  ⟨st.value, st.sel, st.count⟩

/-- The heap state relevant to `Trie` instances: the source's constructor
executes `Trie.prototype.root = new TrieNode()`, so the root lives on the
*prototype* and is shared by every instance that has no own `root`
property.  `own` maps instance identities to the own `root` property that
`clear()` installs. -/
structure TrieSys where
  protoRoot : TrieNode
  own : List (Nat × TrieNode)

/-- `new Trie()`: replaces the shared prototype root with a fresh empty
node.  The new instance itself has no own `root` property. -/
def newTrie (s : TrieSys) : TrieSys := ⟨TrieNode.empty, s.own⟩

/-- `this.root` as read by instance `i`: its own `root` property if
`clear()` ever installed one, else the shared prototype root. -/
def instRoot (s : TrieSys) (i : Nat) : TrieNode := (alistGet s.own i).getD s.protoRoot

/-- `Trie.prototype.add` called on instance `i`: mutates whichever tree
`this.root` resolves to (the own root when present, else the shared
prototype root). -/
def instAdd (s : TrieSys) (i : Nat) (k : List Char) (v : String) : TrieSys :=
  match alistGet s.own i with
  | some r => ⟨s.protoRoot, alistPut s.own i (TrieNode.add r k v)⟩
  | none => ⟨TrieNode.add s.protoRoot k v, s.own⟩

/-- `Trie.prototype.clear` called on instance `i`:
`this.root = new TrieNode()` creates an *own* `root` property shadowing the
prototype's. -/
def instClear (s : TrieSys) (i : Nat) : TrieSys := ⟨s.protoRoot, alistPut s.own i TrieNode.empty⟩

/-- A sequence of `add` calls on instance `i`. -/
def buildSteps (s : TrieSys) (i : Nat) (pairs : List (List Char × String)) : TrieSys :=
  pairs.foldl (fun acc kv => instAdd acc i kv.1 kv.2) s

/-- A sequence of raw `add` calls on a bare node. -/
def buildOn (t : TrieNode) (pairs : List (List Char × String)) : TrieNode :=
  pairs.foldl (fun acc kv => TrieNode.add acc kv.1 kv.2) t

/-- The pairing loop of `parseData`: entries from index 2 onward, taken two
at a time into an object (`result[entry[i]] = entry[i+1]`). -/
def pairsFrom : List String → List (String × String) → List (String × String)
  | k :: v :: rest, acc => pairsFrom rest (alistPut acc k v)
  | _, acc => acc

/-- `parseData` on the list of cell texts of `data.feed.entry`.  Returns
the parsed mapping together with a flag recording whether
`console.error` was called (entry count below 4 or odd). -/
def parseData (entries : List String) : List (String × String) × Bool :=
  if entries.length < 4 ∨ entries.length % 2 ≠ 0 then ([], true)
  else (pairsFrom (entries.drop 2) [], false)

/-- `handleDataResponse` acting on the global trie, which is instance `i`
of the heap state: `trie.clear()` followed by one `add` of
`reverseString(key).toLowerCase()` per parsed pair. -/
def handleDataResponse (s : TrieSys) (i : Nat) (entries : List String) : TrieSys :=
  ((parseData entries).1).foldl
    (fun acc kv => instAdd acc i (normKey kv.1) kv.2) (instClear s i)

/-- Trie holding only `brb → be right back`. -/
def brbTrie : TrieNode := addAbbrev TrieNode.empty "brb" "be right back"

/-- Trie holding `brb → be right back` and `xbrb → extra`. -/
def xbrbTrie : TrieNode := addAbbrev brbTrie "xbrb" "extra"

/-- Trie holding `brb → be right back` and the space-prefixed key
`" brb" → zz`. -/
def spacedTrie : TrieNode := addAbbrev brbTrie " brb" "zz"

/-- Trie holding only `omw → on my way`. -/
def omwTrie : TrieNode := addAbbrev TrieNode.empty "omw" "on my way"

/-! ### Basic lemmas about the trie embedding -/

@[simp]
theorem TrieNode.edges_mk (e : List (Char × TrieNode)) (l : Bool) (d : Option String) :
    (TrieNode.mk e l d).edges = e := rfl

@[simp]
theorem TrieNode.isLeaf_mk (e : List (Char × TrieNode)) (l : Bool) (d : Option String) :
    (TrieNode.mk e l d).isLeaf = l := rfl

@[simp]
theorem TrieNode.data_mk (e : List (Char × TrieNode)) (l : Bool) (d : Option String) :
    (TrieNode.mk e l d).data = d := rfl

theorem alistGet_put_self {α β : Type} [DecidableEq α] (l : List (α × β)) (k : α) (v : β) :
    alistGet (alistPut l k v) k = some v := by
  induction l with
  | nil => simp [alistGet, alistPut]
  | cons hd tl ih =>
    obtain ⟨a, b⟩ := hd
    by_cases h : a = k
    · simp [alistGet, alistPut, h]
    · simp [alistGet, alistPut, h, ih]

theorem alistGet_put_ne {α β : Type} [DecidableEq α] (l : List (α × β)) (k k' : α) (v : β)
    (h : k' ≠ k) : alistGet (alistPut l k v) k' = alistGet l k' := by
  have h1 : ¬(k = k') := fun h2 => h h2.symm
  induction l with
  | nil => simp [alistGet, alistPut, h1]
  | cons hd tl ih =>
    obtain ⟨a, b⟩ := hd
    by_cases ha : a = k
    · have h2 : ¬(a = k') := by rw [ha]; exact h1
      simp [alistPut, alistGet, ha, h1, h2]
    · by_cases ha' : a = k'
      · simp [alistPut, alistGet, ha, ha', h]
      · simp [alistPut, alistGet, ha, ha', ih]

@[simp]
theorem lookupPath_nil (t : TrieNode) : lookupPath t [] = some t := rfl

theorem lookupPath_cons (t : TrieNode) (c : Char) (rest : List Char) :
    lookupPath t (c :: rest) = (alistGet t.edges c).bind (fun n => lookupPath n rest) := rfl

/-- On a non-empty path, `lookupPath` only looks at the starting node's
edges. -/
theorem lookupPath_mk_of_ne_nil (e : List (Char × TrieNode)) (l l' : Bool)
    (d d' : Option String) (k : List Char) (hk : k ≠ []) :
    lookupPath (TrieNode.mk e l d) k = lookupPath (TrieNode.mk e l' d') k := by
  cases k with
  | nil => exact absurd rfl hk
  | cons c rest => simp [lookupPath_cons]

/-- Nothing can be looked up in `new TrieNode()`. -/
theorem lookupVal_empty (k : List Char) : lookupVal TrieNode.empty k = none := by
  cases k with
  | nil => simp [lookupVal, TrieNode.empty, TrieNode.isLeaf]
  | cons c rest => simp [lookupVal, lookupPath_cons, TrieNode.empty, TrieNode.edges, alistGet]

/-- Unfolding equation for `add` on a non-empty key. -/
theorem TrieNode.add_cons (t : TrieNode) (c : Char) (rest : List Char) (v : String) :
    TrieNode.add t (c :: rest) v =
      TrieNode.mk
        (alistPut t.edges c
          (if rest = [] then
            TrieNode.mk ((alistGet t.edges c).getD TrieNode.empty).edges true (some v)
          else TrieNode.add ((alistGet t.edges c).getD TrieNode.empty) rest v))
        t.isLeaf t.data := rfl

/-- `add` with a non-empty key does not change the starting node's own
leaf flag or data. -/
theorem add_cons_isLeaf_data (t : TrieNode) (c : Char) (rest : List Char) (v : String) :
    (TrieNode.add t (c :: rest) v).isLeaf = t.isLeaf ∧
      (TrieNode.add t (c :: rest) v).data = t.data := by
  rw [TrieNode.add_cons]; exact ⟨rfl, rfl⟩

/-- Following the first character of an added non-empty key reaches the
(updated) child for that character. -/
theorem lookupPath_add_cons (t : TrieNode) (c : Char) (rest tail : List Char) (v : String) :
    lookupPath (TrieNode.add t (c :: rest) v) (c :: tail) =
      lookupPath
        (if rest = [] then
          TrieNode.mk ((alistGet t.edges c).getD TrieNode.empty).edges true (some v)
        else TrieNode.add ((alistGet t.edges c).getD TrieNode.empty) rest v) tail := by
  rw [TrieNode.add_cons, lookupPath_cons]
  simp [alistGet_put_self]

/-- `add` actually stores its key: following the inserted key from the
result reaches a leaf carrying the inserted value. -/
theorem lookupPath_add_self (k : List Char) :
    ∀ (t : TrieNode) (v : String), k ≠ [] →
      ∃ n, lookupPath (TrieNode.add t k v) k = some n ∧ n.isLeaf = true ∧ n.data = some v := by
  induction k with
  | nil => intro t v h; exact absurd rfl h
  | cons c rest ih =>
    intro t v _
    cases hr : rest with
    | nil =>
      subst hr
      refine ⟨TrieNode.mk ((alistGet t.edges c).getD TrieNode.empty).edges true (some v),
        ?_, by simp, by simp⟩
      rw [lookupPath_add_cons]
      simp
    | cons c2 rest2 =>
      have hne : rest ≠ [] := by simp [hr]
      subst hr
      obtain ⟨n, hn, hl, hd⟩ := ih ((alistGet t.edges c).getD TrieNode.empty) v hne
      refine ⟨n, ?_, hl, hd⟩
      rw [lookupPath_add_cons]
      simp only [if_neg hne]
      exact hn

/-- A node built over another node's edges routes non-empty paths
identically. -/
theorem lookupPath_mk_edges (ch : TrieNode) (l : Bool) (d : Option String)
    (k : List Char) (hk : k ≠ []) :
    lookupPath (TrieNode.mk ch.edges l d) k = lookupPath ch k := by
  cases k with
  | nil => exact absurd rfl hk
  | cons a r => rw [lookupPath_cons, lookupPath_cons]; rfl

/-- Adding one key never disturbs the leaf flag or the data of the node
reached by any *different* key that was already present. -/
theorem lookupPath_add_ne (k2 : List Char) :
    ∀ (k : List Char) (t : TrieNode) (v : String) (n : TrieNode),
      k2 ≠ k → lookupPath t k = some n →
      ∃ n2, lookupPath (TrieNode.add t k2 v) k = some n2 ∧
        n2.isLeaf = n.isLeaf ∧ n2.data = n.data := by
  induction k2 with
  | nil =>
    intro k t v n _ hP
    exact ⟨n, hP, rfl, rfl⟩
  | cons c2 r2 ih =>
    intro k t v n hne hP
    cases k with
    | nil =>
      rw [lookupPath_nil] at hP
      have ht : t = n := by injection hP
      refine ⟨TrieNode.add t (c2 :: r2) v, lookupPath_nil _, ?_, ?_⟩
      · rw [(add_cons_isLeaf_data t c2 r2 v).1, ht]
      · rw [(add_cons_isLeaf_data t c2 r2 v).2, ht]
    | cons c r =>
      rw [lookupPath_cons] at hP
      obtain ⟨ch, hE, hPr⟩ := Option.bind_eq_some.1 hP
      by_cases hcc : c2 = c
      · subst hcc
        by_cases hr2 : r2 = []
        · subst hr2
          have hr : r ≠ [] := fun h => hne (by rw [h])
          refine ⟨n, ?_, rfl, rfl⟩
          rw [lookupPath_add_cons]
          simp only [hE, Option.getD_some, if_pos]
          rw [lookupPath_mk_edges ch true (some v) r hr]
          exact hPr
        · by_cases hr : r = []
          · subst hr
            rw [lookupPath_nil] at hPr
            have hch : ch = n := by injection hPr
            cases hr2e : r2 with
            | nil => exact absurd hr2e hr2
            | cons d2 r2t =>
              subst hr2e
              refine ⟨TrieNode.add ch (d2 :: r2t) v, ?_, ?_, ?_⟩
              · rw [lookupPath_add_cons]
                simp only [if_neg hr2, hE, Option.getD_some, lookupPath_nil]
              · rw [(add_cons_isLeaf_data ch d2 r2t v).1, hch]
              · rw [(add_cons_isLeaf_data ch d2 r2t v).2, hch]
          · have hrr : r2 ≠ r := fun h => hne (by rw [h])
            obtain ⟨n2, h1, h2, h3⟩ := ih r ch v n hrr hPr
            refine ⟨n2, ?_, h2, h3⟩
            rw [lookupPath_add_cons]
            simp only [if_neg hr2, hE, Option.getD_some]
            exact h1
      · refine ⟨n, ?_, rfl, rfl⟩
        rw [TrieNode.add_cons, lookupPath_cons]
        simp only [TrieNode.edges_mk]
        rw [alistGet_put_ne _ _ _ _ (fun h => hcc h.symm)]
        rw [hE]
        simpa using hPr

/-- Unfolding equation for `buildOn`. -/
theorem buildOn_cons (t : TrieNode) (kv : List Char × String)
    (rest : List (List Char × String)) :
    buildOn t (kv :: rest) = buildOn (TrieNode.add t kv.1 kv.2) rest := rfl

/-- A whole sequence of later `add` calls, none of them for key `k`,
preserves the leaf flag and data of the node reached by `k`. -/
theorem lookupPath_buildOn_ne (later : List (List Char × String)) :
    ∀ (t : TrieNode) (k : List Char) (n : TrieNode),
      (∀ kv ∈ later, kv.1 ≠ k) → lookupPath t k = some n →
      ∃ n2, lookupPath (buildOn t later) k = some n2 ∧
        n2.isLeaf = n.isLeaf ∧ n2.data = n.data := by
  induction later with
  | nil => intro t k n _ hP; exact ⟨n, hP, rfl, rfl⟩
  | cons kv rest ih =>
    intro t k n hne hP
    obtain ⟨n1, h1, h2, h3⟩ :=
      lookupPath_add_ne kv.1 k t kv.2 n (hne kv (List.mem_cons_self kv rest)) hP
    obtain ⟨n2, g1, g2, g3⟩ :=
      ih (TrieNode.add t kv.1 kv.2) k n1 (fun kv2 hm => hne kv2 (List.mem_cons_of_mem kv hm)) h1
    exact ⟨n2, by rwa [buildOn_cons], by rw [g2, h2], by rw [g3, h3]⟩

/-- The traverser follows exactly the paths that exist: if a path leads to a
node, stepping a fresh traverser through its characters succeeds at every
step and the last step reports that node's leaf flag and data. -/
theorem runTraverser_of_lookupPath (k : List Char) :
    ∀ (root n : TrieNode), lookupPath root k = some n →
      (∀ r ∈ runTraverser root k, r ≠ TravRes.fail) ∧
      (k ≠ [] → (runTraverser root k).getLast? = some (TravRes.ok n.isLeaf n.data)) := by
  induction k with
  | nil =>
    intro root n _
    exact ⟨by simp [runTraverser], fun h => absurd rfl h⟩
  | cons c rest ih =>
    intro root n hP
    rw [lookupPath_cons] at hP
    obtain ⟨ch, hE, hPr⟩ := Option.bind_eq_some.1 hP
    have hrun : runTraverser root (c :: rest) =
        TravRes.ok ch.isLeaf ch.data :: runTraverser ch rest := by
      simp [runTraverser, TrieTraverser.traverse, hE]
    obtain ⟨ihm, ihl⟩ := ih ch n hPr
    constructor
    · intro r hr
      rw [hrun] at hr
      rcases List.mem_cons.1 hr with h | h
      · subst h; intro hcontra; cases hcontra
      · exact ihm r h
    · intro _
      rw [hrun]
      cases hrest : rest with
      | nil =>
        subst hrest
        rw [lookupPath_nil] at hPr
        have : ch = n := by injection hPr
        subst this
        simp [runTraverser]
      | cons d r' =>
        subst hrest
        have hrun2 : runTraverser ch (d :: r') =
            (TrieTraverser.traverse ⟨ch⟩ d).1 ::
              runTraverser (TrieTraverser.traverse ⟨ch⟩ d).2.cursor r' := rfl
        rw [hrun2, List.getLast?_cons_cons, ← hrun2]
        exact ihl (by simp)

/-- Complete lookup of a freshly added non-empty key returns its value. -/
theorem lookupVal_add_self (t : TrieNode) (k : List Char) (v : String) (hk : k ≠ []) :
    lookupVal (TrieNode.add t k v) k = some v := by
  obtain ⟨n, hn, hl, hd⟩ := lookupPath_add_self k t v hk
  simp [lookupVal, hn, hl, hd]

/-- Unfolding equation for `buildSteps`. -/
theorem buildSteps_cons (s : TrieSys) (i : Nat) (kv : List Char × String)
    (rest : List (List Char × String)) :
    buildSteps s i (kv :: rest) = buildSteps (instAdd s i kv.1 kv.2) i rest := rfl

/-- `add` on an instance with no own root mutates the shared prototype
root. -/
theorem instAdd_own_none (s : TrieSys) (i : Nat) (k : List Char) (v : String)
    (h : alistGet s.own i = none) :
    instAdd s i k v = ⟨TrieNode.add s.protoRoot k v, s.own⟩ := by
  simp [instAdd, h]

/-- `add` on an instance with an own root mutates that own root. -/
theorem instAdd_own_some (s : TrieSys) (i : Nat) (k : List Char) (v : String) (r : TrieNode)
    (h : alistGet s.own i = some r) :
    instAdd s i k v = ⟨s.protoRoot, alistPut s.own i (TrieNode.add r k v)⟩ := by
  simp [instAdd, h]

/-- A sequence of `add` calls on an instance without an own root acts
entirely on the prototype root. -/
theorem buildSteps_own_none (pairs : List (List Char × String)) :
    ∀ (s : TrieSys) (i : Nat), alistGet s.own i = none →
      buildSteps s i pairs = ⟨buildOn s.protoRoot pairs, s.own⟩ := by
  induction pairs with
  | nil => intro s i _; cases s; rfl
  | cons kv rest ih =>
    intro s i h
    rw [buildSteps_cons, instAdd_own_none s i kv.1 kv.2 h]
    exact ih ⟨TrieNode.add s.protoRoot kv.1 kv.2, s.own⟩ i h

/-- A sequence of `add` calls on an instance with an own root acts
entirely on that own root. -/
theorem buildSteps_own_some (pairs : List (List Char × String)) :
    ∀ (s : TrieSys) (i : Nat) (r : TrieNode), alistGet s.own i = some r →
      (buildSteps s i pairs).protoRoot = s.protoRoot ∧
      alistGet (buildSteps s i pairs).own i = some (buildOn r pairs) := by
  induction pairs with
  | nil => intro s i r h; exact ⟨rfl, h⟩
  | cons kv rest ih =>
    intro s i r h
    rw [buildSteps_cons, instAdd_own_some s i kv.1 kv.2 r h]
    have h2 : alistGet (alistPut s.own i (TrieNode.add r kv.1 kv.2)) i =
        some (TrieNode.add r kv.1 kv.2) := alistGet_put_self _ _ _
    obtain ⟨g1, g2⟩ := ih ⟨s.protoRoot, alistPut s.own i (TrieNode.add r kv.1 kv.2)⟩ i
      (TrieNode.add r kv.1 kv.2) h2
    exact ⟨g1, by rwa [← buildOn_cons] at g2⟩

/-! ### Claims -/

/-- Claim C1 (code bug): the spec says that after a terminal node's boundary
condition is satisfied the engine applies the replacement and stops, with
exactly one replacement per expansion attempt.  The source's `while (true)`
loop has no `break` in the replacement branch, so scanning continues over
the already-mutated text with the stale cursor position.  On the trie
{brb → be right back, " brb" → zz}, field text `"h. brb"` with cursor
offset 6, *two* replacements run and the text is garbled to
`"h.zzright back"` with selection 4. -/
theorem C1_second_replacement_applied :
    processInput spacedTrie (String.data "h. brb") 6 =
      ⟨String.data "h.zzright back", 4, 2⟩ := by rfl

/-- Claim C2, counterexample: the claim says a failed boundary check at a
terminal node stops the scan with no replacement ever applied.  On the trie
{brb → be right back, xbrb → extra}, text `"xbrb"` with cursor offset 4,
the boundary check fails at the `brb` terminal (preceded by alphanumeric
`x`), yet the scan continues and applies the longer `xbrb` match: one
replacement is applied, contradicting the claim. -/
theorem C2_counterexample :
    processInput xbrbTrie (String.data "xbrb") 4 = ⟨String.data "extra", 5, 1⟩ ∧
    (processInput xbrbTrie (String.data "xbrb") 4).count ≠ 0 := by
  refine ⟨by rfl, ?_⟩
  decide

/-- Claim C2, amended: when the backward scan reaches a terminal node whose
boundary check fails, no replacement is applied *at that node* and the
text, selection and replacement count are unchanged at that step, but the
scan does not stop: it continues traversing backward from that node, and a
longer match reached later can still be applied (witnessed concretely by
`xbrb` over `brb` on input `"xbrb"`, which ends with one replacement). -/
theorem C2_failed_boundary_scan_continues :
    (∀ (cp pos : Nat) (st : EngSt) (d : Option String) (tr2 : TrieTraverser),
      st.trav.traverse (Char.toLower (charAt st.value pos)) = (TravRes.ok true d, tr2) →
      ¬(pos = 0 ∨ isBoundaryCharacter (charAt st.value (pos - 1)) = true) →
      scan cp (pos + 1) st = scan cp pos ⟨st.value, st.sel, tr2, st.count⟩) ∧
    processInput xbrbTrie (String.data "xbrb") 4 = ⟨String.data "extra", 5, 1⟩ := by
  constructor
  · intro cp pos st d tr2 hstep hbound
    rw [scan, hstep]
    simp [hbound]
  · rfl

/-- Witness for C2: a concrete scan step at a terminal node with a failed
boundary check (text `"ab"`, position 1, a one-edge trie) continues to the
next position with only the traverser moved. -/
theorem C2_failed_boundary_scan_continues_witness :
    scan 2 2 ⟨String.data "ab", 2,
        ⟨TrieNode.mk [('b', TrieNode.mk [] true (some "z"))] false none⟩, 0⟩ =
      scan 2 1 ⟨String.data "ab", 2, ⟨TrieNode.mk [] true (some "z")⟩, 0⟩ :=
  C2_failed_boundary_scan_continues.1 2 1
    ⟨String.data "ab", 2, ⟨TrieNode.mk [('b', TrieNode.mk [] true (some "z"))] false none⟩, 0⟩
    (some "z") ⟨TrieNode.mk [] true (some "z")⟩ (by rfl) (by decide)

/-- Claim C3, counterexample: with `brb → be right back` on text
`"hey brb"` and cursor offset 7, the claim's final cursor offset 18 is
wrong: the source computes `before.length + replacement.length = 4 + 13 =
17` (the whole result is only 17 characters long). -/
theorem C3_counterexample :
    (processInput brbTrie (String.data "hey brb") 7).sel = 17 ∧
    (processInput brbTrie (String.data "hey brb") 7).sel ≠ 18 := by
  refine ⟨by rfl, ?_⟩
  decide

/-- Claim C3, amended: with `brb → be right back` on text `"hey brb"` and
cursor offset 7, the engine produces text `"hey be right back"` with the
collapsed cursor at `before.length + replacement.length = 17`, one
replacement applied. -/
theorem C3_amended_result :
    processInput brbTrie (String.data "hey brb") 7 =
      ⟨String.data "hey be right back",
        (String.data "hey ").length + (String.data "be right back").length, 1⟩ := by rfl

/-- Claim C4: after adding a non-empty key `k` with value `v`, and any
later additions of keys different from `k`, stepping a fresh traverser
through `k`'s characters succeeds at every step and the last step reports a
terminal node carrying `v`. -/
theorem C4_insert_then_lookup (t : TrieNode) (k : List Char) (v : String)
    (later : List (List Char × String)) (hk : k ≠ [])
    (hlater : ∀ kv ∈ later, kv.1 ≠ k) :
    (∀ r ∈ runTraverser (buildOn (TrieNode.add t k v) later) k, r ≠ TravRes.fail) ∧
    (runTraverser (buildOn (TrieNode.add t k v) later) k).getLast? =
      some (TravRes.ok true (some v)) := by
  obtain ⟨n, hn, hl, hd⟩ := lookupPath_add_self k t v hk
  obtain ⟨n2, g1, g2, g3⟩ := lookupPath_buildOn_ne later (TrieNode.add t k v) k n hlater hn
  obtain ⟨hm, hlast⟩ := runTraverser_of_lookupPath k (buildOn (TrieNode.add t k v) later) n2 g1
  refine ⟨hm, ?_⟩
  rw [hlast hk, g2, hl, g3, hd]

/-- Witness for C4: key `"ab"` with value `"x"` added to an empty node,
followed by a later addition of the different key `"a"`, still reports a
terminal node with value `"x"` at the last step. -/
theorem C4_insert_then_lookup_witness :
    (runTraverser (buildOn (TrieNode.add TrieNode.empty ['a', 'b'] "x")
        [(['a'], "y")]) ['a', 'b']).getLast? = some (TravRes.ok true (some "x")) :=
  (C4_insert_then_lookup TrieNode.empty ['a', 'b'] "x" [(['a'], "y")]
    (by decide) (by decide)).2

/-- Claim C5: the capitalization rule.  Concretely, `omw → on my way` on
text `"Omw"` with cursor offset 3 yields `"On my way"` with cursor 9; in
general, when the matched character differs from its lower-casing, exactly
the first character of the stored expansion is upper-cased and the rest is
unchanged, and when it equals its lower-casing the expansion is inserted
verbatim. -/
theorem C5_capitalization :
    processInput omwTrie (String.data "Omw") 3 = ⟨String.data "On my way", 9, 1⟩ ∧
    (∀ (c a : Char) (rest : List Char), c ≠ Char.toLower c →
      buildReplacement c (a :: rest) = Char.toUpper a :: rest) ∧
    (∀ (c : Char) (d : List Char), c = Char.toLower c → buildReplacement c d = d) := by
  refine ⟨by rfl, ?_, ?_⟩
  · intro c a rest hc
    have hcond : c ≠ Char.toLower c ∧ (a :: rest) ≠ [] := ⟨hc, by simp⟩
    unfold buildReplacement
    rw [if_pos hcond]
  · intro c d hc
    have hcond : ¬(c ≠ Char.toLower c ∧ d ≠ []) := fun hx => hx.1 hc
    unfold buildReplacement
    rw [if_neg hcond]

/-- Witness for C5: the general capitalization branches evaluated at
concrete characters. -/
theorem C5_capitalization_witness :
    buildReplacement 'O' ['o', 'k'] = ['O', 'k'] ∧
    buildReplacement 'x' ['a'] = ['a'] := by
  constructor
  · rw [C5_capitalization.2.1 'O' 'o' ['k'] (by decide)]
    decide
  · exact C5_capitalization.2.2 'x' ['a'] (by decide)

/-- Claim C6: a payload with fewer than 4 cell entries or an odd number of
entries parses to the empty mapping with an error logged, and the rebuild
still clears the prior trie (via `clear()`), so afterwards *every* lookup —
in particular of any previously-known abbreviation — fails. -/
theorem C6_invalid_payload_clears_trie (s : TrieSys) (i : Nat) (entries : List String)
    (h : entries.length < 4 ∨ entries.length % 2 ≠ 0) :
    parseData entries = ([], true) ∧
    ∀ k, lookupVal (instRoot (handleDataResponse s i entries) i) k = none := by
  have hp : parseData entries = ([], true) := by
    unfold parseData
    rw [if_pos h]
  refine ⟨hp, fun k => ?_⟩
  have hh : handleDataResponse s i entries = instClear s i := by
    unfold handleDataResponse
    rw [hp]
    rfl
  rw [hh]
  have hr : instRoot (instClear s i) i = TrieNode.empty := by
    simp [instRoot, instClear, alistGet_put_self]
  rw [hr, lookupVal_empty]

/-- Witness for C6: a 3-entry payload over a prior trie that knew `brb`;
after the reload the lookup of `brb`'s stored (reversed, lower-cased) key
fails. -/
theorem C6_invalid_payload_clears_trie_witness :
    parseData ["t", "u", "brb"] = ([], true) ∧
    lookupVal (instRoot (handleDataResponse ⟨brbTrie, []⟩ 0 ["t", "u", "brb"]) 0)
      (normKey "brb") = none := by
  have h := C6_invalid_payload_clears_trie ⟨brbTrie, []⟩ 0 ["t", "u", "brb"] (by decide)
  exact ⟨h.1, h.2 (normKey "brb")⟩

/-- Claim C7, counterexample: adding the empty string does *not* mark the
root terminal — the source's `for` loop body never runs for an empty key,
so the root keeps `isLeaf = false` and no data. -/
theorem C7_counterexample :
    (TrieNode.add TrieNode.empty [] "v").isLeaf = false ∧
    ¬((TrieNode.add TrieNode.empty [] "v").isLeaf = true ∧
      (TrieNode.add TrieNode.empty [] "v").data = some "v") := by
  refine ⟨by rfl, ?_⟩
  decide

/-- Claim C7, amended: inserting the empty string as a key is a no-op — the
trie is returned unchanged, so the root is terminal only if it already was,
and a fresh cursor before any advance sits on the unchanged root. -/
theorem C7_amended_empty_add_noop (t : TrieNode) (v : String) :
    TrieNode.add t [] v = t := rfl

/-- Claim C8: building a trie on a fresh instance from a list of pairs,
then calling `clear()` and re-inserting the exact same pairs, yields a
root on which every sequence of traverser steps gives exactly the same
results as on the original. -/
theorem C8_clear_then_rebuild (s0 : TrieSys) (i : Nat)
    (pairs : List (List Char × String)) (hi : alistGet s0.own i = none) :
    ∀ cs : List Char,
      runTraverser
        (instRoot (buildSteps (instClear (buildSteps (newTrie s0) i pairs) i) i pairs) i) cs =
      runTraverser (instRoot (buildSteps (newTrie s0) i pairs) i) cs := by
  have h1 : buildSteps (newTrie s0) i pairs = ⟨buildOn TrieNode.empty pairs, s0.own⟩ :=
    buildSteps_own_none pairs (newTrie s0) i hi
  have hroot1 : instRoot (buildSteps (newTrie s0) i pairs) i = buildOn TrieNode.empty pairs := by
    rw [h1]
    simp [instRoot, hi]
  have h2 : alistGet (instClear (buildSteps (newTrie s0) i pairs) i).own i =
      some TrieNode.empty := by
    simp [instClear, alistGet_put_self]
  obtain ⟨g1, g2⟩ := buildSteps_own_some pairs
    (instClear (buildSteps (newTrie s0) i pairs) i) i TrieNode.empty h2
  have hroot2 : instRoot (buildSteps (instClear (buildSteps (newTrie s0) i pairs) i) i pairs) i =
      buildOn TrieNode.empty pairs := by
    simp [instRoot, g2]
  intro cs
  rw [hroot1, hroot2]

/-- Witness for C8: clear-then-rebuild of the single pair `("a", "x")` on a
fresh instance traverses `"a"` identically to the original build. -/
theorem C8_clear_then_rebuild_witness :
    runTraverser
      (instRoot (buildSteps (instClear (buildSteps (newTrie ⟨brbTrie, []⟩) 0
        [(['a'], "x")]) 0) 0 [(['a'], "x")]) 0) ['a'] =
    runTraverser (instRoot (buildSteps (newTrie ⟨brbTrie, []⟩) 0 [(['a'], "x")]) 0) ['a'] :=
  C8_clear_then_rebuild ⟨brbTrie, []⟩ 0 [(['a'], "x")] (by rfl) ['a']

/-- Claim C9: when `traverse` is called with a character for which the
current node has no outgoing edge, it returns failure and leaves the
cursor on the same node, so any subsequent `traverse` call behaves exactly
as if the failed call had never occurred. -/
theorem C9_failed_traverse_keeps_cursor (tr : TrieTraverser) (c : Char)
    (h : alistGet tr.cursor.edges c = none) :
    tr.traverse c = (TravRes.fail, tr) ∧
    ∀ c2 : Char, ((tr.traverse c).2).traverse c2 = tr.traverse c2 := by
  have h1 : tr.traverse c = (TravRes.fail, tr) := by
    simp [TrieTraverser.traverse, h]
  exact ⟨h1, fun c2 => by rw [h1]⟩

/-- Witness for C9: a failed step with `'z'` on the `brb` trie leaves the
cursor at the root, and a following `'b'` step behaves as on a fresh
traverser. -/
theorem C9_failed_traverse_keeps_cursor_witness :
    TrieTraverser.traverse ⟨brbTrie⟩ 'z' = (TravRes.fail, ⟨brbTrie⟩) ∧
    ((TrieTraverser.traverse ⟨brbTrie⟩ 'z').2).traverse 'b' =
      TrieTraverser.traverse ⟨brbTrie⟩ 'b' := by
  have h := C9_failed_traverse_keeps_cursor ⟨brbTrie⟩ 'z' (by rfl)
  exact ⟨h.1, h.2 'b'⟩

/-- Claim C10: the `Trie` constructor stores the root on `Trie.prototype`,
so instances without an own root share it: after `t1 = new Trie();
t1.add(k, v); t2 = new Trie()`, instance `t1` can no longer find `k` (the
second construction replaced the shared root), whereas if `t1.clear()` ran
first, `t1` got its own root and the same additions survive `t2`'s
construction. -/
theorem C10_prototype_shared_root (s0 : TrieSys) (i : Nat) (k : List Char) (v : String)
    (hk : k ≠ []) (hi : alistGet s0.own i = none) :
    lookupVal (instRoot (newTrie (instAdd (newTrie s0) i k v)) i) k = none ∧
    lookupVal (instRoot (newTrie (instAdd (instClear (newTrie s0) i) i k v)) i) k = some v := by
  constructor
  · have hroot : instRoot (newTrie (instAdd (newTrie s0) i k v)) i = TrieNode.empty := by
      simp [newTrie, instAdd, instRoot, hi]
    rw [hroot, lookupVal_empty]
  · have hroot : instRoot (newTrie (instAdd (instClear (newTrie s0) i) i k v)) i =
        TrieNode.add TrieNode.empty k v := by
      simp [newTrie, instClear, instAdd, instRoot, alistGet_put_self]
    rw [hroot, lookupVal_add_self _ k v hk]

/-- Witness for C10: the shared-prototype scenario for key `"b"` with value
`"x"` starting from a fresh heap. -/
theorem C10_prototype_shared_root_witness :
    lookupVal (instRoot (newTrie (instAdd (newTrie ⟨brbTrie, []⟩) 0 ['b'] "x")) 0) ['b'] = none ∧
    lookupVal (instRoot (newTrie (instAdd (instClear (newTrie ⟨brbTrie, []⟩) 0) 0 ['b'] "x")) 0)
      ['b'] = some "x" :=
  C10_prototype_shared_root ⟨brbTrie, []⟩ 0 ['b'] "x" (by decide) (by rfl)
